import Mathlib

/-!
Verification model of the ijson core: the growable array and consuming
iterator of src/array.rs, and the canonical archive representation of
src/rkyv.rs.  The array stores opaque value handles, so it is modelled
over an arbitrary element type.
-/

set_option autoImplicit false

namespace IJson

/-- Model of the growable array of src/array.rs.  The state is the header
capacity field together with the initialized element prefix of the backing
slots; the header length field is the length of that prefix.  The static
representation is capacity 0 with no elements (the shared empty header). -/
structure IArray (α : Type) where
  cap : Nat
  elems : List α
deriving DecidableEq

namespace IArray

variable {α : Type}

/-- Header::pop (src/array.rs lines 44-60): if len is 0, None; otherwise
decrement len and read the slot at the new len, i.e. the last element. -/
def header_pop (a : IArray α) : Option α × IArray α :=
  if a.elems.length = 0 then (none, a)
  else (a.elems.getLast?, ⟨a.cap, a.elems.dropLast⟩)

/-- Header::push (src/array.rs lines 37-43): write the item into the slot at
index len and increment len; the caller must have reserved the space. -/
def header_push (a : IArray α) (item : α) : IArray α :=
  ⟨a.cap, a.elems ++ [item]⟩

/-- IArray::new (line 140): a non-owning reference to the shared empty
header, which has len 0 and cap 0. -/
def new : IArray α := ⟨0, []⟩

/-- IArray::with_capacity (lines 144-150): capacity 0 gives the static
array, otherwise a fresh allocation with len 0 and the requested cap. -/
def with_capacity (c : Nat) : IArray α :=
  if c = 0 then new else ⟨c, []⟩

/-- IArray::capacity (lines 164-166). -/
def capacity (a : IArray α) : Nat := a.cap

/-- IArray::len (lines 167-169). -/
def len (a : IArray α) : Nat := a.elems.length

/-- IArray::is_static (lines 161-163): capacity() == 0. -/
def is_static (a : IArray α) : Bool := a.capacity == 0

/-- IArray::as_slice (lines 173-175): the first len initialized elements. -/
def as_slice (a : IArray α) : List α := a.elems

/-- IArray::resize_internal (lines 183-192): from the static representation,
or to capacity 0, replace self with a fresh with_capacity array (dropping the
old value); otherwise realloc in place, which keeps the stored bytes up to
the new capacity and rewrites the cap field. -/
def resize_internal (a : IArray α) (c : Nat) : IArray α :=
  if a.is_static || c == 0 then with_capacity c
  else ⟨c, a.elems.take c⟩

/-- IArray::reserve (lines 193-201): if capacity already covers
len + additional, return; otherwise resize to
max(2 * current_capacity, len + additional). -/
def reserve (a : IArray α) (additional : Nat) : IArray α :=
  let current_capacity := a.capacity
  let desired_capacity := a.len + additional
  if desired_capacity ≤ current_capacity then a
  else resize_internal a (max (current_capacity * 2) desired_capacity)

/-- Loop body of IArray::truncate (lines 202-212): while len is above the
target, Header::pop.  The fuel argument bounds the loop; the list returned
records every popped element in pop order (the release order). -/
def popLoopFuel : Nat → IArray α → Nat → List α × IArray α
  | 0, a, _ => ([], a)
  | fuel + 1, a, target =>
    if target < a.elems.length then
      match header_pop a with
      | (some x, a1) =>
        let (rest, a2) := popLoopFuel fuel a1 target
        (x :: rest, a2)
      | (none, a1) => ([], a1)
    else ([], a)

/-- IArray::truncate (lines 202-212) with the popped elements recorded:
no-op on the static array, otherwise pop until len is at most the target. -/
def truncateTrace (a : IArray α) (target : Nat) : List α × IArray α :=
  if a.is_static then ([], a)
  else popLoopFuel a.elems.length a target

/-- IArray::truncate (lines 202-212). -/
def truncate (a : IArray α) (target : Nat) : IArray α :=
  (truncateTrace a target).2

/-- IArray::clear (lines 213-215): truncate(0). -/
def clear (a : IArray α) : IArray α := truncate a 0

/-- Rust slice rotate_right(1): the last element moves to the front. -/
def rotateRight1 (l : List α) : List α :=
  match l.getLast? with
  | none => []
  | some x => x :: l.dropLast

/-- Rust slice rotate_left(1): the first element moves to the end. -/
def rotateLeft1 : List α → List α
  | [] => []
  | x :: xs => xs ++ [x]

/-- IArray::insert (lines 216-230): reserve one slot, assert index <= len,
push the item at the end, then rotate the slice from index rightwards by
one; a failed assert is modelled as none. -/
def insert (a : IArray α) (index : Nat) (item : α) : Option (IArray α) :=
  let a1 := reserve a 1
  if index ≤ a1.elems.length then
    let a2 := header_push a1 item
    some (if index < a2.elems.length then
            ⟨a2.cap, a2.elems.take index ++ rotateRight1 (a2.elems.drop index)⟩
          else a2)
  else none

/-- IArray::remove (lines 231-240): assert index < len, rotate the slice
from index leftwards by one, then pop; a failed assert or unwrap is none. -/
def remove (a : IArray α) (index : Nat) : Option (α × IArray α) :=
  if index < a.elems.length then
    let a1 : IArray α := ⟨a.cap, a.elems.take index ++ rotateLeft1 (a.elems.drop index)⟩
    match header_pop a1 with
    | (some x, a2) => some (x, a2)
    | (none, _) => none
  else none

/-- Rust slice swap of two in-bounds positions. -/
def listSwap (l : List α) (i j : Nat) : List α :=
  match l[i]?, l[j]? with
  | some vi, some vj => (l.set i vj).set j vi
  | _, _ => l

/-- IArray::swap_remove (lines 241-251): assert index < len, swap the
element at index with the last element, then pop. -/
def swap_remove (a : IArray α) (index : Nat) : Option (α × IArray α) :=
  if index < a.elems.length then
    let last_index := a.elems.length - 1
    let a1 : IArray α := ⟨a.cap, listSwap a.elems index last_index⟩
    match header_pop a1 with
    | (some x, a2) => some (x, a2)
    | (none, _) => none
  else none

/-- IArray::push (lines 252-258): reserve one slot, then Header::push. -/
def push (a : IArray α) (item : α) : IArray α :=
  header_push (reserve a 1) item

/-- IArray::pop (lines 259-266): None on the static array, otherwise
Header::pop. -/
def pop (a : IArray α) : Option α × IArray α :=
  if a.is_static then (none, a) else header_pop a

/-- IArray::shrink_to_fit (lines 267-269): resize to exactly len. -/
def shrink_to_fit (a : IArray α) : IArray α :=
  resize_internal a a.len

/-- IArray::drop_impl (lines 288-296): clear, then, unless static,
deallocate the block and reset the handle to the shared empty header.  The
result records the released elements in release order, whether the heap
block was freed, and the final state of the handle. -/
def drop_impl (a : IArray α) : List α × Bool × IArray α :=
  let (released, a1) := truncateTrace a 0
  if a1.is_static then (released, false, a1)
  else (released, true, new)

/-- The representation invariant of a live array: the initialized prefix
fits in the allocated capacity.  In particular capacity 0 forces the empty
element list, i.e. the static representation. -/
def WF (a : IArray α) : Prop := a.elems.length ≤ a.cap

instance (a : IArray α) : Decidable a.WF := by
  unfold WF; infer_instance

end IArray

/-- The heap block of an array as the consuming iterator sees it: the two
header fields and the raw slots of the allocation.  A slot holds none when
it is uninitialized (or its value has already been moved out). -/
structure Block (α : Type) where
  len : Nat
  cap : Nat
  slots : List (Option α)
deriving DecidableEq

/-- IntoIter (src/array.rs lines 63-66): a raw block reference, nulled once
the block is deallocated, and a cursor index. -/
structure IntoIter (α : Type) where
  header : Option (Block α)
  index : Nat
deriving DecidableEq

namespace IntoIter

variable {α : Type}

/-- impl IntoIterator for IArray (src/array.rs lines 299-318): the static
array gives a null header; otherwise the iterator takes over the block. -/
def into_iter (a : IArray α) : IntoIter α :=
  if a.is_static then ⟨none, 0⟩
  else
    ⟨some ⟨a.elems.length, a.cap,
           a.elems.map some ++ List.replicate (a.cap - a.elems.length) none⟩, 0⟩

/-- IntoIter::next (src/array.rs lines 71-91): on a null header produce
nothing; otherwise read the slot at the cursor (whatever it holds - the
source performs this read unconditionally), advance the cursor, and if the
advanced cursor has reached len, deallocate the block and null the header.
The Bool records whether this call deallocated; an inner none in the
produced value is a read of an uninitialized slot. -/
def next (it : IntoIter α) : Option (Option α) × Bool × IntoIter α :=
  match it.header with
  | none => (none, false, it)
  | some h =>
    let res := h.slots.getD it.index none
    let index := it.index + 1
    if h.len ≤ index then (some res, true, ⟨none, index⟩)
    else (some res, false, ⟨some h, index⟩)

/-- The iterator state after n calls to next, discarding the produced
values. -/
def stepN : Nat → IntoIter α → IntoIter α
  | 0, it => it
  | n + 1, it => stepN n (next it).2.2

/-- Loop body of impl Drop for IntoIter (src/array.rs lines 94-98): call
next until it produces nothing, collecting the produced reads and counting
deallocations; the fuel argument bounds the loop. -/
def drainFuel : Nat → IntoIter α → List (Option α) × Nat
  | 0, _ => ([], 0)
  | fuel + 1, it =>
    match next it with
    | (none, _, _) => ([], 0)
    | (some v, freed, it1) =>
      let (vs, d) := drainFuel fuel it1
      (v :: vs, (if freed then 1 else 0) + d)

/-- Fuel that suffices to drain any reachable iterator state. -/
def fuelOf (it : IntoIter α) : Nat :=
  match it.header with
  | none => 0
  | some h => h.len + 1

/-- impl Drop for IntoIter (src/array.rs lines 94-98): run next to
exhaustion; the result lists every value read out during the drain and
counts how many times the block was deallocated. -/
def dropIter (it : IntoIter α) : List (Option α) × Nat :=
  drainFuel (fuelOf it) it

end IntoIter

/-- Modelled from the spec: the number collaborator (the number type's
source is not among the given files).  Per the spec it represents signed
64-bit integers, unsigned 64-bit integers, and 64-bit floats; the type
parameter F stands for the finite floats, whose internal structure the
core never inspects. -/
inductive INumber (F : Type) where
  | i64 (v : Int)
  | u64 (v : Nat)
  | f64 (v : F)
deriving DecidableEq

namespace INumber

variable {F : Type}

/-- Modelled from the spec: true exactly when the number carries a
decimal-point/fractional representation, i.e. is stored as a float. -/
def has_decimal_point : INumber F → Bool
  | .f64 _ => true
  | _ => false

/-- Modelled from the spec: the value, when it fits in a signed 64-bit
integer; floats do not convert. -/
def to_i64 : INumber F → Option Int
  | .i64 v => some v
  | .u64 v => if v < 2 ^ 63 then some (v : Int) else none
  | .f64 _ => none

/-- Modelled from the spec: the value, when it fits in an unsigned 64-bit
integer; floats do not convert. -/
def to_u64 : INumber F → Option Nat
  | .i64 v => if 0 ≤ v then some v.toNat else none
  | .u64 v => some v
  | .f64 _ => none

/-- Modelled from the spec: the float value of a number that carries one. -/
def to_f64 : INumber F → Option F
  | .f64 v => some v
  | _ => none

/-- Modelled from the spec: the signed 64-bit constructor. -/
def fromI64 (v : Int) : INumber F := .i64 v

/-- Modelled from the spec: the unsigned 64-bit constructor; a value inside
the signed range is stored through the signed representation, so that equal
logical numbers have equal representations. -/
def fromU64 (v : Nat) : INumber F :=
  if v < 2 ^ 63 then .i64 (v : Int) else .u64 v

/-- Modelled from the spec: the fallible float constructor, which succeeds
on every finite float; F contains only finite floats. -/
def tryFromF64 (v : F) : Option (INumber F) := some (.f64 v)

end INumber

/-- Modelled from the spec: the tagged JSON value handle (the value type's
source is not among the given files) as exposed by its destructuring view:
exactly one of Null, Bool, Number, String, Array, Object.  The object
collaborator is a key-unique mapping with the canonical (sorted) key
ordering, modelled as a key-sorted association list. -/
inductive IValue (F : Type) where
  | null
  | bool (b : Bool)
  | number (n : INumber F)
  | string (s : String)
  | array (elems : List (IValue F))
  | object (entries : List (String × IValue F))

/-- JsonNumber (src/rkyv.rs lines 43-47). -/
inductive JsonNumber (F : Type) where
  | posInt (v : Nat)
  | negInt (v : Int)
  | float (v : F)
deriving DecidableEq

/-- ArchivableJson (src/rkyv.rs lines 23-38).  The Object payload is a
BTreeMap from String, modelled as a key-sorted association list. -/
inductive ArchivableJson (F : Type) where
  | null
  | bool (b : Bool)
  | number (n : JsonNumber F)
  | string (s : String)
  | array (elems : List (ArchivableJson F))
  | object (entries : List (String × ArchivableJson F))

section BTree

variable {A : Type}

/-- Lexicographic strict order on character lists: the model of the
byte-lexicographic Ord that the Rust BTreeMap uses on String keys. -/
def charListLt : List Char → List Char → Bool
  | [], [] => false
  | [], _ :: _ => true
  | _ :: _, [] => false
  | a :: as, b :: bs => if a < b then true else if b < a then false else charListLt as bs

/-- Strict key order on strings, as their character sequences. -/
def keyLt (a b : String) : Bool := charListLt a.data b.data

/-- Insertion into a key-sorted association list, replacing the entry with
an equal key: the model of BTreeMap insertion. -/
def btreeInsert (k : String) (v : A) : List (String × A) → List (String × A)
  | [] => [(k, v)]
  | (k1, v1) :: rest =>
    if keyLt k k1 then (k, v) :: (k1, v1) :: rest
    else if keyLt k1 k then (k1, v1) :: btreeInsert k v rest
    else (k, v) :: rest

/-- Collecting a pair sequence into a BTreeMap: insert the pairs in order,
later entries replacing earlier ones with an equal key. -/
def btreeFromList (l : List (String × A)) : List (String × A) :=
  l.foldl (fun m kv => btreeInsert kv.1 kv.2 m) []

/-- Strictly ascending key list: the shape of a BTreeMap's key sequence. -/
def sortedKeys : List String → Bool
  | [] => true
  | [_] => true
  | a :: b :: rest => keyLt a b && sortedKeys (b :: rest)

end BTree

section Archive

variable {F : Type}

mutual

/-- impl From of a borrowed IValue into ArchivableJson (src/rkyv.rs lines
49-74).  The number arm follows the source dispatch: decimal point first,
then to_i64, then to_u64; unwrap panics are modelled by none.  Object
entries are collected into the BTreeMap model. -/
def archive : IValue F → Option (ArchivableJson F)
  | .null => some .null
  | .bool b => some (.bool b)
  | .number n =>
    if n.has_decimal_point then
      n.to_f64.map (fun f => .number (.float f))
    else
      match n.to_i64 with
      | some v => some (.number (.negInt v))
      | none => n.to_u64.map (fun u => .number (.posInt u))
  | .string s => some (.string s)
  | .array xs => (archiveList xs).map .array
  | .object es => (archiveEntries es).map (fun l => .object (btreeFromList l))

/-- Elementwise conversion of an array's elements, in order. -/
def archiveList : List (IValue F) → Option (List (ArchivableJson F))
  | [] => some []
  | x :: xs => do
    let a ← archive x
    let rest ← archiveList xs
    pure (a :: rest)

/-- Entrywise conversion of an object's entries, keys kept. -/
def archiveEntries : List (String × IValue F) → Option (List (String × ArchivableJson F))
  | [] => some []
  | (k, v) :: rest => do
    let a ← archive v
    let r ← archiveEntries rest
    pure ((k, a) :: r)

end

mutual

/-- impl From of ArchivableJson into IValue (src/rkyv.rs lines 82-108).
PosInt and NegInt go through the unsigned and signed number constructors;
Float goes through the fallible float constructor, whose failure (the
source expect panic) is modelled by none.  Object goes through the object
collaborator's from_iter, modelled as collection into the canonical sorted
mapping. -/
def unarchive : ArchivableJson F → Option (IValue F)
  | .null => some .null
  | .bool b => some (.bool b)
  | .number (.posInt u) => some (.number (INumber.fromU64 u))
  | .number (.negInt v) => some (.number (INumber.fromI64 v))
  | .number (.float f) => (INumber.tryFromF64 f).map .number
  | .string s => some (.string s)
  | .array xs => (unarchiveList xs).map .array
  | .object es => (unarchiveEntries es).map (fun l => .object (btreeFromList l))

/-- Elementwise reconstruction of an array's elements, in order. -/
def unarchiveList : List (ArchivableJson F) → Option (List (IValue F))
  | [] => some []
  | x :: xs => do
    let a ← unarchive x
    let rest ← unarchiveList xs
    pure (a :: rest)

/-- Entrywise reconstruction of an object's entries, keys kept. -/
def unarchiveEntries : List (String × ArchivableJson F) → Option (List (String × IValue F))
  | [] => some []
  | (k, v) :: rest => do
    let a ← unarchive v
    let r ← unarchiveEntries rest
    pure ((k, a) :: r)

end

mutual

/-- Well-formed value trees: the claims quantify over values built from
nulls, bools, integers in the 64-bit ranges (the unsigned representation
being reserved for values above the signed range), finite floats, strings,
arrays, and key-unique objects in canonical (strictly sorted) key order. -/
def wfv : IValue F → Bool
  | .null => true
  | .bool _ => true
  | .number (.i64 v) => decide (-(2 ^ 63) ≤ v) && decide (v < 2 ^ 63)
  | .number (.u64 v) => decide (2 ^ 63 ≤ v) && decide (v < 2 ^ 64)
  | .number (.f64 _) => true
  | .string _ => true
  | .array xs => wfvList xs
  | .object es => sortedKeys (es.map Prod.fst) && wfvEntries es

/-- Well-formedness of every element of a list of values. -/
def wfvList : List (IValue F) → Bool
  | [] => true
  | x :: xs => wfv x && wfvList xs

/-- Well-formedness of every value of an entry list. -/
def wfvEntries : List (String × IValue F) → Bool
  | [] => true
  | (_, v) :: rest => wfv v && wfvEntries rest

end

end Archive

/-- A push or pop instruction, for model-based equivalence runs. -/
inductive ArrOp (α : Type) where
  | push (x : α)
  | pop

/-- Run a sequence of push/pop instructions on the array, collecting each
pop's returned value in order. -/
def runArr {α : Type} : IArray α → List (ArrOp α) → IArray α × List (Option α)
  | a, [] => (a, [])
  | a, .push x :: ops => runArr (a.push x) ops
  | a, .pop :: ops =>
    let r := a.pop
    let rest := runArr r.2 ops
    (rest.1, r.1 :: rest.2)

/-- Modelled from the spec: the reference list of the model-based
equivalence property - push appends at the back. -/
def refPush {α : Type} (l : List α) (x : α) : List α := l ++ [x]

/-- Modelled from the spec: reference pop returns the last element, if any,
and removes it. -/
def refPop {α : Type} (l : List α) : Option α × List α :=
  (l.getLast?, l.dropLast)

/-- Run the same instruction sequence on the reference list. -/
def runRef {α : Type} : List α → List (ArrOp α) → List α × List (Option α)
  | l, [] => (l, [])
  | l, .push x :: ops => runRef (refPush l x) ops
  | l, .pop :: ops =>
    let r := refPop l
    let rest := runRef r.2 ops
    (rest.1, r.1 :: rest.2)

/-- Induction over value trees that hands the inductive hypothesis to every
element of an array and every entry value of an object. -/
def valueInduction {F : Type} {P : IValue F → Prop}
    (hnull : P .null) (hbool : ∀ b, P (.bool b)) (hnum : ∀ n, P (.number n))
    (hstr : ∀ s, P (.string s))
    (harr : ∀ xs, (∀ v ∈ xs, P v) → P (.array xs))
    (hobj : ∀ es, (∀ kv ∈ es, P kv.2) → P (.object es)) :
    ∀ v, P v
  | .null => hnull
  | .bool b => hbool b
  | .number n => hnum n
  | .string s => hstr s
  | .array xs =>
    harr xs (fun v _ => valueInduction hnull hbool hnum hstr harr hobj v)
  | .object es =>
    hobj es (fun kv _ => valueInduction hnull hbool hnum hstr harr hobj kv.2)
termination_by v => sizeOf v
decreasing_by
  · rename_i hv
    have h1 := List.sizeOf_lt_of_mem hv
    simp only [IValue.array.sizeOf_spec]
    omega
  · rename_i kv hkv
    have h1 := List.sizeOf_lt_of_mem hkv
    obtain ⟨k, v⟩ := kv
    simp only [IValue.object.sizeOf_spec, Prod.mk.sizeOf_spec] at h1 ⊢
    omega

namespace IArray

variable {α : Type}

theorem is_static_iff (a : IArray α) : a.is_static = true ↔ a.cap = 0 := by
  simp [is_static, capacity]

theorem wf_static_elems {a : IArray α} (hwf : a.WF) (hs : a.is_static = true) :
    a.elems = [] := by
  rw [is_static_iff] at hs
  have h1 : a.elems.length ≤ 0 := by
    have := hwf
    unfold WF at this
    omega
  exact List.length_eq_zero.mp (Nat.le_zero.mp h1)

theorem wf_new : (new : IArray α).WF := by
  simp [new, WF]

theorem wf_with_capacity (c : Nat) : (with_capacity c : IArray α).WF := by
  unfold with_capacity
  split <;> simp [new, WF]

theorem resize_internal_cap {a : IArray α} {c : Nat} (hc : c ≠ 0) :
    (a.resize_internal c).cap = c := by
  unfold resize_internal with_capacity
  split
  · simp [hc]
  · rfl

theorem resize_internal_elems {a : IArray α} {c : Nat} (hwf : a.WF)
    (hc : a.elems.length ≤ c) : (a.resize_internal c).elems = a.elems := by
  unfold resize_internal
  split
  · rename_i h
    rcases Bool.or_eq_true_iff.mp h with h1 | h1
    · rw [wf_static_elems hwf h1]
      unfold with_capacity
      split <;> simp [new]
    · have hc0 : c = 0 := by simpa using h1
      have : a.elems = [] := by
        apply List.length_eq_zero.mp
        omega
      rw [this, hc0]
      simp [with_capacity, new]
  · simp [List.take_of_length_le hc]

theorem reserve_eq_of_le {a : IArray α} {n : Nat}
    (h : a.len + n ≤ a.capacity) : a.reserve n = a := by
  unfold reserve
  simp only [len, capacity] at h ⊢
  rw [if_pos h]

theorem reserve_cap_of_lt {a : IArray α} {n : Nat}
    (h : a.capacity < a.len + n) :
    (a.reserve n).capacity = max (a.capacity * 2) (a.len + n) := by
  unfold reserve
  simp only [len, capacity] at h ⊢
  rw [if_neg (by omega)]
  have hc : max (a.cap * 2) (a.elems.length + n) ≠ 0 := by
    have : 0 < a.elems.length + n := by omega
    omega
  exact resize_internal_cap hc

theorem reserve_cap_ge_old (a : IArray α) (n : Nat) :
    a.capacity ≤ (a.reserve n).capacity := by
  by_cases h : a.len + n ≤ a.capacity
  · rw [reserve_eq_of_le h]
  · rw [reserve_cap_of_lt (by omega)]
    simp only [capacity]
    omega

theorem reserve_cap_ge_desired (a : IArray α) (n : Nat) :
    a.len + n ≤ (a.reserve n).capacity := by
  by_cases h : a.len + n ≤ a.capacity
  · rw [reserve_eq_of_le h]; exact h
  · rw [reserve_cap_of_lt (by omega)]
    simp only [len, capacity]
    omega

theorem reserve_elems {a : IArray α} (hwf : a.WF) (n : Nat) :
    (a.reserve n).elems = a.elems := by
  by_cases h : a.len + n ≤ a.capacity
  · rw [reserve_eq_of_le h]
  · unfold reserve
    simp only [len, capacity] at h ⊢
    rw [if_neg h]
    exact resize_internal_elems hwf (by omega)

theorem wf_reserve {a : IArray α} (hwf : a.WF) (n : Nat) : (a.reserve n).WF := by
  unfold WF
  have h1 := reserve_cap_ge_desired a n
  rw [reserve_elems hwf n]
  simp only [len, capacity] at h1
  omega

theorem push_elems {a : IArray α} (hwf : a.WF) (x : α) :
    (a.push x).elems = a.elems ++ [x] := by
  unfold push header_push
  rw [reserve_elems hwf 1]

theorem push_cap {a : IArray α} (x : α) :
    (a.push x).cap = (a.reserve 1).cap := rfl

theorem wf_push {a : IArray α} (hwf : a.WF) (x : α) : (a.push x).WF := by
  unfold WF
  rw [push_elems hwf x]
  have h1 := reserve_cap_ge_desired a 1
  simp only [len, capacity] at h1
  simp only [push_cap, List.length_append, List.length_cons, List.length_nil]
  omega

theorem pop_eq {a : IArray α} (hwf : a.WF) :
    a.pop = (a.elems.getLast?, ⟨a.cap, a.elems.dropLast⟩) := by
  obtain ⟨c, e⟩ := a
  unfold pop
  split
  · rename_i hs
    have he : e = [] := wf_static_elems hwf hs
    subst he
    rfl
  · unfold header_pop
    split
    · rename_i h0
      have he : e = [] := List.length_eq_zero.mp h0
      subst he
      rfl
    · rfl

theorem wf_pop {a : IArray α} (hwf : a.WF) : a.pop.2.WF := by
  rw [pop_eq hwf]
  unfold WF at hwf ⊢
  have := List.length_dropLast a.elems
  simp only
  omega

theorem dropLast_drop_comm (l : List α) (t : Nat) :
    (l.drop t).dropLast = l.dropLast.drop t := by
  rw [List.dropLast_eq_take, List.dropLast_eq_take, List.drop_take,
    List.length_drop]
  congr 1
  omega

theorem drop_reverse_of_lt {l : List α} {t : Nat} (ht : t < l.length)
    (hne : l ≠ []) :
    (l.drop t).reverse = l.getLast hne :: (l.dropLast.drop t).reverse := by
  have hd : l.drop t ≠ [] := by
    intro h
    have := List.drop_eq_nil_iff.mp h
    omega
  have hlast : (l.drop t).getLast hd = l.getLast hne := by
    have h1 : (l.drop t).getLast? = l.getLast? := by
      rw [List.getLast?_drop, if_neg (by omega)]
    rw [List.getLast?_eq_getLast_of_ne_nil hd, List.getLast?_eq_getLast_of_ne_nil hne] at h1
    exact Option.some.inj h1
  conv_lhs => rw [← List.dropLast_concat_getLast hd]
  rw [List.reverse_append, hlast, dropLast_drop_comm]
  rfl

theorem popLoopFuel_cap (fuel : Nat) (a : IArray α) (t : Nat) :
    (popLoopFuel fuel a t).2.cap = a.cap := by
  induction fuel generalizing a with
  | zero => rfl
  | succ n ih =>
    unfold popLoopFuel
    split
    · rename_i hlt
      unfold header_pop
      rw [if_neg (by omega)]
      cases hg : a.elems.getLast? with
      | none => rfl
      | some x =>
        simp only
        rw [ih]
    · rfl

theorem popLoopFuel_spec (fuel : Nat) (a : IArray α) (t : Nat)
    (hfuel : a.elems.length - t ≤ fuel) :
    popLoopFuel fuel a t = ((a.elems.drop t).reverse, ⟨a.cap, a.elems.take t⟩) := by
  induction fuel generalizing a with
  | zero =>
    have hle : a.elems.length ≤ t := by omega
    unfold popLoopFuel
    rw [List.drop_eq_nil_of_le hle, List.take_of_length_le hle]
    rfl
  | succ n ih =>
    unfold popLoopFuel
    split
    · rename_i hlt
      have hne : a.elems ≠ [] := by
        intro h
        rw [h] at hlt
        simp at hlt
      unfold header_pop
      rw [if_neg (by omega), List.getLast?_eq_getLast_of_ne_nil hne]
      simp only
      rw [ih ⟨a.cap, a.elems.dropLast⟩
        (by show a.elems.dropLast.length - t ≤ n
            rw [List.length_dropLast]
            omega)]
      simp only
      rw [drop_reverse_of_lt hlt hne]
      have htake : a.elems.dropLast.take t = a.elems.take t := by
        rw [List.dropLast_eq_take, List.take_take]
        congr 1
        omega
      rw [htake]
    · rename_i hge
      have hle : a.elems.length ≤ t := by omega
      rw [List.drop_eq_nil_of_le hle, List.take_of_length_le hle]
      rfl

theorem truncateTrace_eq {a : IArray α} (hwf : a.WF) (t : Nat) :
    a.truncateTrace t = ((a.elems.drop t).reverse, ⟨a.cap, a.elems.take t⟩) := by
  unfold truncateTrace
  split
  · rename_i hs
    have he : a.elems = [] := wf_static_elems hwf hs
    obtain ⟨c, e⟩ := a
    simp only at he
    subst he
    simp
  · exact popLoopFuel_spec _ a t (by omega)

theorem truncate_eq {a : IArray α} (hwf : a.WF) (t : Nat) :
    a.truncate t = ⟨a.cap, a.elems.take t⟩ := by
  unfold truncate
  rw [truncateTrace_eq hwf t]

theorem clear_eq {a : IArray α} (hwf : a.WF) :
    a.clear = ⟨a.cap, []⟩ := by
  unfold clear
  rw [truncate_eq hwf 0]
  rfl

theorem wf_truncate {a : IArray α} (hwf : a.WF) (t : Nat) : (a.truncate t).WF := by
  rw [truncate_eq hwf t]
  unfold WF at hwf ⊢
  simp only [List.length_take]
  omega

theorem rotateRight1_concat (l : List α) (x : α) :
    rotateRight1 (l ++ [x]) = x :: l := by
  unfold rotateRight1
  rw [List.getLast?_concat]
  simp only
  rw [List.dropLast_concat]

theorem insert_eq {a : IArray α} (hwf : a.WF) {i : Nat} (hi : i ≤ a.len) (x : α) :
    a.insert i x = some ⟨(a.reserve 1).cap, a.elems.take i ++ x :: a.elems.drop i⟩ := by
  have he1 : (a.reserve 1).elems = a.elems := reserve_elems hwf 1
  simp only [len] at hi
  simp only [insert, header_push, he1]
  rw [if_pos (by omega)]
  rw [if_pos (by simp only [List.length_append, List.length_cons,
    List.length_nil]; omega)]
  rw [List.take_append_of_le_length hi, List.drop_append_of_le_length hi,
    rotateRight1_concat]

theorem remove_eq {a : IArray α} {i : Nat} (hi : i < a.len) :
    a.remove i =
      some (a.elems.get ⟨i, hi⟩, ⟨a.cap, a.elems.take i ++ a.elems.drop (i + 1)⟩) := by
  simp only [len] at hi
  have hassoc : a.elems.take i ++ (a.elems.drop (i + 1) ++ [a.elems[i]]) =
      (a.elems.take i ++ a.elems.drop (i + 1)) ++ [a.elems[i]] := by
    rw [List.append_assoc]
  simp only [remove, header_pop, rotateLeft1]
  rw [if_pos hi, List.drop_eq_getElem_cons hi]
  simp only [rotateLeft1, hassoc]
  rw [if_neg (by simp), List.getLast?_concat, List.dropLast_concat]
  rfl

theorem remove_cap {a : IArray α} {i : Nat} {r : α} {a1 : IArray α}
    (h : a.remove i = some (r, a1)) : a1.cap = a.cap := by
  by_cases hi : i < a.len
  · rw [remove_eq hi] at h
    simp only [Option.some.injEq, Prod.mk.injEq] at h
    rw [← h.2]
  · simp only [len] at hi
    simp only [remove] at h
    rw [if_neg hi] at h
    exact absurd h (by simp)

theorem header_pop_cap (a : IArray α) : a.header_pop.2.cap = a.cap := by
  unfold header_pop
  split <;> rfl

theorem swap_remove_cap {a : IArray α} {i : Nat} {r : α} {a1 : IArray α}
    (h : a.swap_remove i = some (r, a1)) : a1.cap = a.cap := by
  by_cases hi : i < a.elems.length
  · simp only [swap_remove] at h
    rw [if_pos hi] at h
    rcases hp : (⟨a.cap, listSwap a.elems i (a.elems.length - 1)⟩ : IArray α).header_pop
      with ⟨o, a2⟩
    have hc2 : a2.cap = a.cap := by
      have := header_pop_cap (⟨a.cap, listSwap a.elems i (a.elems.length - 1)⟩ : IArray α)
      rw [hp] at this
      exact this
    rw [hp] at h
    cases o with
    | none => exact absurd h (by simp)
    | some x =>
      simp only [Option.some.injEq, Prod.mk.injEq] at h
      rw [← h.2]
      exact hc2
  · simp only [swap_remove] at h
    rw [if_neg hi] at h
    exact absurd h (by simp)

end IArray

namespace IntoIter

variable {α : Type}

theorem drainFuel_exhausted (fuel j : Nat) :
    drainFuel fuel (⟨none, j⟩ : IntoIter α) = ([], 0) := by
  cases fuel <;> rfl

theorem slots_getD (e : List α) (c j : Nat) (hj : j < e.length) :
    (e.map some ++ List.replicate (c - e.length) none).getD j none
      = some (e.get ⟨j, hj⟩) := by
  rw [List.getD_eq_getElem?_getD, List.getElem?_append]
  rw [if_pos (by simpa using hj)]
  rw [List.getElem?_map, List.getElem?_eq_getElem hj]
  rfl

theorem next_active_of_lt {h : Block α} {i : Nat} (hi : i + 1 < h.len) :
    next ⟨some h, i⟩ = (some (h.slots.getD i none), false, ⟨some h, i + 1⟩) := by
  unfold next
  simp only
  rw [if_neg (by omega)]

theorem next_active_last {h : Block α} {i : Nat} (hi : h.len ≤ i + 1) :
    next ⟨some h, i⟩ = (some (h.slots.getD i none), true, ⟨none, i + 1⟩) := by
  unfold next
  simp only
  rw [if_pos hi]

theorem stepN_active (h : Block α) (k : Nat) :
    ∀ i : Nat, i + k < h.len → stepN k ⟨some h, i⟩ = ⟨some h, i + k⟩ := by
  induction k with
  | zero => intro i _; rfl
  | succ n ih =>
    intro i hik
    show stepN n (next ⟨some h, i⟩).2.2 = _
    rw [next_active_of_lt (by omega)]
    have := ih (i + 1) (by omega)
    rw [this]
    congr 1
    omega

theorem drainFuel_active (h : Block α) (e : List α)
    (hs : h.slots = e.map some ++ List.replicate (h.cap - e.length) none)
    (hlen : h.len = e.length) (fuel : Nat) :
    ∀ i : Nat, i < h.len → h.len - i ≤ fuel →
      drainFuel fuel ⟨some h, i⟩ = ((e.drop i).map some, 1) := by
  induction fuel with
  | zero => intro i hi hf; omega
  | succ n ih =>
    intro i hi hf
    have hie : i < e.length := by omega
    have hread : h.slots.getD i none = some (e.get ⟨i, hie⟩) := by
      rw [hs]
      exact slots_getD e h.cap i hie
    have hdrop : e.drop i = e.get ⟨i, hie⟩ :: e.drop (i + 1) :=
      List.drop_eq_getElem_cons hie
    by_cases hlast : h.len ≤ i + 1
    · show (match next ⟨some h, i⟩ with
        | (none, _, _) => ([], 0)
        | (some v, freed, it1) =>
          let r := drainFuel n it1
          (v :: r.1, (if freed then 1 else 0) + r.2)) = _
      rw [next_active_last hlast]
      simp only [drainFuel_exhausted, hread]
      rw [hdrop, List.drop_eq_nil_of_le (by omega)]
      rfl
    · show (match next ⟨some h, i⟩ with
        | (none, _, _) => ([], 0)
        | (some v, freed, it1) =>
          let r := drainFuel n it1
          (v :: r.1, (if freed then 1 else 0) + r.2)) = _
      rw [next_active_of_lt (by omega)]
      simp only [hread]
      rw [ih (i + 1) (by omega) (by omega)]
      rw [hdrop]
      rfl

end IntoIter

theorem run_equiv {α : Type} (ops : List (ArrOp α)) :
    ∀ (a : IArray α) (l : List α), a.WF → a.elems = l →
      (runArr a ops).1.elems = (runRef l ops).1
        ∧ (runArr a ops).2 = (runRef l ops).2 := by
  induction ops with
  | nil => intro a l _ he; exact ⟨he, rfl⟩
  | cons op ops ih =>
    intro a l hwf he
    cases op with
    | push x =>
      show (runArr (a.push x) ops).1.elems = (runRef (refPush l x) ops).1
        ∧ (runArr (a.push x) ops).2 = (runRef (refPush l x) ops).2
      exact ih (a.push x) (refPush l x) (IArray.wf_push hwf x)
        (by rw [IArray.push_elems hwf x, he]; rfl)
    | pop =>
      have hp := IArray.pop_eq hwf
      have h1 : (runArr a (.pop :: ops)).1 = (runArr a.pop.2 ops).1 := rfl
      have h2 : (runArr a (.pop :: ops)).2 = a.pop.1 :: (runArr a.pop.2 ops).2 := rfl
      have h3 : (runRef l (.pop :: ops)).1 = (runRef (refPop l).2 ops).1 := rfl
      have h4 : (runRef l (.pop :: ops)).2 = (refPop l).1 :: (runRef (refPop l).2 ops).2 := rfl
      have hrec := ih a.pop.2 (refPop l).2 (IArray.wf_pop hwf)
        (by rw [hp, ← he]; rfl)
      refine ⟨by rw [h1, h3]; exact hrec.1, ?_⟩
      rw [h2, h4, hrec.2, hp, he]
      rfl

/-- C3: for every sequence of push and pop operations applied from new(),
the array's observable contents - the as_slice sequence and each pop's
returned value - equal those of the reference list performing the same
operations in the same order. -/
theorem C3_push_pop_model_based_equivalence (α : Type) (ops : List (ArrOp α)) :
    (runArr (IArray.new : IArray α) ops).1.as_slice = (runRef ([] : List α) ops).1
      ∧ (runArr (IArray.new : IArray α) ops).2 = (runRef ([] : List α) ops).2 :=
  run_equiv ops IArray.new [] IArray.wf_new rfl

/-- C4: the code of IntoIter::next contradicts the specified transition.
At the failing input - a heap-backed array whose len is 0, reached by push
then pop - the iterator is active, yet the first next call does not produce
nothing: it yields a read of an uninitialized slot (inner none) and
deallocates, instead of yielding exactly len = 0 values. -/
theorem C4_next_yields_on_empty_heap_block :
    (((IArray.new : IArray Nat).push 7).pop.2.is_static = false
      ∧ ((IArray.new : IArray Nat).push 7).pop.2.len = 0)
    ∧ (IntoIter.next (IntoIter.into_iter ((IArray.new : IArray Nat).push 7).pop.2)).1
        = some none
    ∧ (IntoIter.next (IntoIter.into_iter ((IArray.new : IArray Nat).push 7).pop.2)).2.1
        = true := by
  decide

/-- C5: reserve(n) never decreases capacity; afterwards capacity is at
least len + n; it is a no-op when the current capacity already suffices;
otherwise the new capacity is exactly max(2 * current_capacity, len + n). -/
theorem C5_reserve_growth_policy (α : Type) (a : IArray α) (n : Nat) (hwf : a.WF) :
    a.capacity ≤ (a.reserve n).capacity
    ∧ (a.reserve n).len + n ≤ (a.reserve n).capacity
    ∧ (a.len + n ≤ a.capacity → a.reserve n = a)
    ∧ (a.capacity < a.len + n →
        (a.reserve n).capacity = max (2 * a.capacity) (a.len + n)) := by
  refine ⟨IArray.reserve_cap_ge_old a n, ?_, fun h => IArray.reserve_eq_of_le h, fun h => ?_⟩
  · have h1 := IArray.reserve_cap_ge_desired a n
    have h2 : (a.reserve n).len = a.len := by
      simp only [IArray.len, IArray.reserve_elems hwf n]
    rw [h2]
    exact h1
  · rw [IArray.reserve_cap_of_lt h, Nat.mul_comm]

theorem C5_reserve_growth_policy_witness :
    (⟨1, [7]⟩ : IArray Nat).capacity ≤ ((⟨1, [7]⟩ : IArray Nat).reserve 3).capacity
    ∧ ((⟨1, [7]⟩ : IArray Nat).reserve 3).len + 3
        ≤ ((⟨1, [7]⟩ : IArray Nat).reserve 3).capacity
    ∧ ((⟨1, [7]⟩ : IArray Nat).len + 3 ≤ (⟨1, [7]⟩ : IArray Nat).capacity →
        (⟨1, [7]⟩ : IArray Nat).reserve 3 = ⟨1, [7]⟩)
    ∧ ((⟨1, [7]⟩ : IArray Nat).capacity < (⟨1, [7]⟩ : IArray Nat).len + 3 →
        ((⟨1, [7]⟩ : IArray Nat).reserve 3).capacity
          = max (2 * (⟨1, [7]⟩ : IArray Nat).capacity) ((⟨1, [7]⟩ : IArray Nat).len + 3)) :=
  C5_reserve_growth_policy Nat ⟨1, [7]⟩ 3 (by decide)

/-- C6: for every starting sequence, every index i at most len, and every
item x, insert(i, x) followed by remove(i) returns x and restores the
original element sequence. -/
theorem C6_insert_then_remove (α : Type) (a : IArray α) (i : Nat) (x : α)
    (hwf : a.WF) (hi : i ≤ a.len) :
    ∃ a1 a2 : IArray α, a.insert i x = some a1 ∧ a1.remove i = some (x, a2)
      ∧ a2.as_slice = a.as_slice := by
  simp only [IArray.len] at hi
  have h1 := IArray.insert_eq hwf hi x
  set a1 : IArray α := ⟨(a.reserve 1).cap, a.elems.take i ++ x :: a.elems.drop i⟩ with ha1
  have hlen1 : a1.elems.length = a.elems.length + 1 := by
    simp only [ha1, List.length_append, List.length_cons, List.length_take]
    have := List.length_drop i a.elems
    simp only [this, List.length_take]
    omega
  have hi1 : i < a1.len := by
    simp only [IArray.len, hlen1]
    omega
  have h2 := IArray.remove_eq hi1
  have hi1l : i < a1.elems.length := hi1
  have hgetx : a1.elems.get ⟨i, hi1⟩ = x := by
    have hti : (a.elems.take i).length = i := by
      simp only [List.length_take]
      omega
    have hq : a1.elems[i]? = some x := by
      simp only [ha1]
      rw [List.getElem?_append, if_neg (by rw [hti]; omega), hti]
      simp
    rw [List.getElem?_eq_getElem hi1l] at hq
    have := Option.some.inj hq
    simpa using this
  have htake1 : a1.elems.take i = a.elems.take i := by
    simp only [ha1]
    rw [List.take_append_of_le_length (by simp only [List.length_take]; omega)]
    rw [List.take_take]
    congr 1
    omega
  have hdrop1 : a1.elems.drop (i + 1) = a.elems.drop i := by
    simp only [ha1]
    have hsplit : a.elems.take i ++ x :: a.elems.drop i
        = (a.elems.take i ++ [x]) ++ a.elems.drop i := by
      simp
    rw [hsplit]
    apply List.drop_left'
    simp only [List.length_append, List.length_take, List.length_cons,
      List.length_nil]
    omega
  refine ⟨a1, ⟨a1.cap, a1.elems.take i ++ a1.elems.drop (i + 1)⟩, h1, ?_, ?_⟩
  · rw [h2, hgetx]
  · simp only [IArray.as_slice, htake1, hdrop1]
    exact List.take_append_drop i a.elems

theorem C6_insert_then_remove_witness :
    ∃ a1 a2 : IArray Nat, (⟨2, [1, 2]⟩ : IArray Nat).insert 1 9 = some a1
      ∧ a1.remove 1 = some (9, a2)
      ∧ a2.as_slice = (⟨2, [1, 2]⟩ : IArray Nat).as_slice :=
  C6_insert_then_remove Nat ⟨2, [1, 2]⟩ 1 9 (by decide) (by decide)

/-- C8 counterexample: after push then clear the array has len 0 but is
heap-backed (capacity 1), so len() == 0 does not coincide with the static
representation after a sequence ending in full truncation. -/
theorem C8_counterexample :
    ((IArray.new : IArray Nat).push 0).clear.len = 0
    ∧ ((IArray.new : IArray Nat).push 0).clear.is_static = false
    ∧ ¬(((IArray.new : IArray Nat).push 0).clear.len = 0
        ↔ ((IArray.new : IArray Nat).push 0).clear.is_static = true) := by
  decide

/-- C8 amended: after a fresh new() or a full truncation, len() is 0, and
a static array always has len 0; but full truncation leaves the capacity
(hence staticness) unchanged, so len() == 0 holds without the static
representation on a heap-backed array. -/
theorem C8_len_zero_vs_static (α : Type) (a : IArray α) (hwf : a.WF) :
    (IArray.new : IArray α).len = 0
    ∧ (IArray.new : IArray α).is_static = true
    ∧ a.clear.len = 0
    ∧ a.clear.capacity = a.capacity
    ∧ a.clear.is_static = a.is_static
    ∧ (a.is_static = true → a.len = 0) := by
  have hc := IArray.clear_eq hwf
  refine ⟨rfl, rfl, ?_, ?_, ?_, fun hs => ?_⟩
  · rw [hc]; rfl
  · rw [hc]; rfl
  · rw [hc]; rfl
  · simp only [IArray.len, IArray.wf_static_elems hwf hs, List.length_nil]

theorem C8_len_zero_vs_static_witness :
    (IArray.new : IArray Nat).len = 0
    ∧ (IArray.new : IArray Nat).is_static = true
    ∧ (⟨1, [7]⟩ : IArray Nat).clear.len = 0
    ∧ (⟨1, [7]⟩ : IArray Nat).clear.capacity = (⟨1, [7]⟩ : IArray Nat).capacity
    ∧ (⟨1, [7]⟩ : IArray Nat).clear.is_static = (⟨1, [7]⟩ : IArray Nat).is_static
    ∧ ((⟨1, [7]⟩ : IArray Nat).is_static = true → (⟨1, [7]⟩ : IArray Nat).len = 0) :=
  C8_len_zero_vs_static Nat ⟨1, [7]⟩ (by decide)

/-- C9 counterexample: destroying the two-element array built by pushing 0
then 1 releases the elements as [1, 0] - the last element first - not in
front-to-back order [0, 1]. -/
theorem C9_counterexample :
    (((IArray.new : IArray Nat).push 0).push 1).drop_impl.1 = [1, 0]
    ∧ (((IArray.new : IArray Nat).push 0).push 1).drop_impl.1 ≠ [0, 1] := by
  decide

/-- C9 amended: destroying a non-static array releases all len elements in
reverse order - the last element first, proceeding back to front - and then
frees the heap block; destroying a static array releases nothing and frees
nothing. -/
theorem C9_drop_impl_release_order (α : Type) (a : IArray α) (hwf : a.WF) :
    a.drop_impl.1 = a.elems.reverse
    ∧ (a.drop_impl.2.1 = true ↔ a.is_static = false)
    ∧ (a.is_static = true → a.drop_impl.1 = [] ∧ a.drop_impl.2.1 = false) := by
  have ht := IArray.truncateTrace_eq hwf 0
  have hstat : (⟨a.cap, a.elems.take 0⟩ : IArray α).is_static = a.is_static := rfl
  cases hs : a.is_static with
  | true =>
    have he : a.elems = [] := IArray.wf_static_elems hwf hs
    have hdi : a.drop_impl = (a.elems.reverse, false, ⟨a.cap, a.elems.take 0⟩) := by
      unfold IArray.drop_impl
      rw [ht]
      simp only [List.drop_zero]
      rw [if_pos (by rw [hstat]; exact hs)]
    rw [hdi, he]
    simp
  | false =>
    have hdi : a.drop_impl = (a.elems.reverse, true, IArray.new) := by
      unfold IArray.drop_impl
      rw [ht]
      simp only [List.drop_zero]
      rw [if_neg (by rw [hstat, hs]; simp)]
    rw [hdi]
    simp

theorem C9_drop_impl_release_order_witness :
    (⟨2, [3, 4]⟩ : IArray Nat).drop_impl.1 = ([3, 4] : List Nat).reverse
    ∧ ((⟨2, [3, 4]⟩ : IArray Nat).drop_impl.2.1 = true
        ↔ (⟨2, [3, 4]⟩ : IArray Nat).is_static = false)
    ∧ ((⟨2, [3, 4]⟩ : IArray Nat).is_static = true →
        (⟨2, [3, 4]⟩ : IArray Nat).drop_impl.1 = []
          ∧ (⟨2, [3, 4]⟩ : IArray Nat).drop_impl.2.1 = false) :=
  C9_drop_impl_release_order Nat ⟨2, [3, 4]⟩ (by decide)

/-- C10: the shrinking operations pop, truncate, clear, remove and
swap_remove never change the capacity. -/
theorem C10_shrink_ops_preserve_capacity (α : Type) (a : IArray α) (t i : Nat) :
    a.pop.2.capacity = a.capacity
    ∧ (a.truncate t).capacity = a.capacity
    ∧ a.clear.capacity = a.capacity
    ∧ (∀ (r : α) (a1 : IArray α), a.remove i = some (r, a1) → a1.capacity = a.capacity)
    ∧ (∀ (r : α) (a1 : IArray α), a.swap_remove i = some (r, a1) → a1.capacity = a.capacity) := by
  have htr : ∀ t1 : Nat, (a.truncate t1).capacity = a.capacity := by
    intro t1
    unfold IArray.truncate IArray.truncateTrace
    split
    · rfl
    · exact IArray.popLoopFuel_cap a.elems.length a t1
  refine ⟨?_, htr t, htr 0, ?_, ?_⟩
  · unfold IArray.pop
    split
    · rfl
    · exact IArray.header_pop_cap a
  · intro r a1 h
    exact IArray.remove_cap h
  · intro r a1 h
    exact IArray.swap_remove_cap h

theorem C10_shrink_ops_preserve_capacity_witness :
    ((⟨3, [3, 4, 5]⟩ : IArray Nat).remove 0 = some (3, ⟨3, [4, 5]⟩))
    ∧ (⟨3, [4, 5]⟩ : IArray Nat).capacity = (⟨3, [3, 4, 5]⟩ : IArray Nat).capacity
    ∧ ((⟨3, [3, 4, 5]⟩ : IArray Nat).swap_remove 0 = some (3, ⟨3, [5, 4]⟩))
    ∧ (⟨3, [5, 4]⟩ : IArray Nat).capacity = (⟨3, [3, 4, 5]⟩ : IArray Nat).capacity :=
  ⟨by decide,
   (C10_shrink_ops_preserve_capacity Nat ⟨3, [3, 4, 5]⟩ 1 0).2.2.2.1 3 ⟨3, [4, 5]⟩ (by decide),
   by decide,
   (C10_shrink_ops_preserve_capacity Nat ⟨3, [3, 4, 5]⟩ 1 0).2.2.2.2 3 ⟨3, [5, 4]⟩ (by decide)⟩

/-- C7: dropping the consuming iterator after k of len elements have been
consumed still reads out every remaining element, in order, and frees the
heap block exactly once; dropping an already-exhausted iterator reads
nothing and frees nothing. -/
theorem C7_early_drop_frees_once (α : Type) (a : IArray α) (k : Nat)
    (hwf : a.WF) (hk : k < a.len) :
    IntoIter.dropIter (IntoIter.stepN k (IntoIter.into_iter a))
      = ((a.elems.drop k).map some, 1)
    ∧ (∀ j : Nat, IntoIter.dropIter (⟨none, j⟩ : IntoIter α) = ([], 0)) := by
  simp only [IArray.len] at hk
  have hcap : 0 < a.cap := by
    have := hwf
    unfold IArray.WF at this
    omega
  have hns : a.is_static = false := by
    simp [IArray.is_static, IArray.capacity]
    omega
  have hii : IntoIter.into_iter a
      = ⟨some ⟨a.elems.length, a.cap,
          a.elems.map some ++ List.replicate (a.cap - a.elems.length) none⟩, 0⟩ := by
    unfold IntoIter.into_iter
    rw [hns]
    rfl
  set h : Block α := ⟨a.elems.length, a.cap,
    a.elems.map some ++ List.replicate (a.cap - a.elems.length) none⟩ with hh
  have hstep : IntoIter.stepN k (IntoIter.into_iter a) = ⟨some h, k⟩ := by
    rw [hii]
    have := IntoIter.stepN_active h k 0 (by simp only [hh]; omega)
    simpa using this
  refine ⟨?_, fun j => IntoIter.drainFuel_exhausted _ j⟩
  rw [hstep]
  unfold IntoIter.dropIter
  exact IntoIter.drainFuel_active h a.elems rfl rfl _ k (by simp only [hh]; omega)
    (by simp only [IntoIter.fuelOf, hh]; omega)

theorem C7_early_drop_frees_once_witness :
    IntoIter.dropIter (IntoIter.stepN 1 (IntoIter.into_iter (⟨3, [5, 6, 7]⟩ : IArray Nat)))
      = (([5, 6, 7] : List Nat).drop 1 |>.map some, 1)
    ∧ (∀ j : Nat, IntoIter.dropIter (⟨none, j⟩ : IntoIter Nat) = ([], 0)) :=
  C7_early_drop_frees_once Nat ⟨3, [5, 6, 7]⟩ 1 (by decide) (by decide)

theorem charListLt_asymm : ∀ (a b : List Char),
    charListLt a b = true → charListLt b a = false := by
  intro a
  induction a with
  | nil =>
    intro b h
    cases b with
    | nil => simp [charListLt] at h
    | cons y ys => rfl
  | cons x xs ih =>
    intro b h
    cases b with
    | nil => simp [charListLt] at h
    | cons y ys =>
      simp only [charListLt] at h ⊢
      by_cases h1 : x < y
      · rw [if_neg (lt_asymm h1), if_pos h1]
      · rw [if_neg h1] at h
        by_cases h2 : y < x
        · rw [if_pos h2] at h
          exact absurd h (by simp)
        · rw [if_neg h2] at h
          rw [if_neg h2, if_neg h1]
          exact ih ys h

theorem charListLt_trans : ∀ (a b c : List Char),
    charListLt a b = true → charListLt b c = true → charListLt a c = true := by
  intro a
  induction a with
  | nil =>
    intro b c hab hbc
    cases b with
    | nil => simp [charListLt] at hab
    | cons y ys =>
      cases c with
      | nil => simp [charListLt] at hbc
      | cons z zs => rfl
  | cons x xs ih =>
    intro b c hab hbc
    cases b with
    | nil => simp [charListLt] at hab
    | cons y ys =>
      cases c with
      | nil => simp [charListLt] at hbc
      | cons z zs =>
        simp only [charListLt] at hab hbc ⊢
        by_cases h1 : x < y
        · by_cases h2 : y < z
          · rw [if_pos (lt_trans h1 h2)]
          · rw [if_neg h2] at hbc
            by_cases h3 : z < y
            · rw [if_pos h3] at hbc
              exact absurd hbc (by simp)
            · have hyz : y = z := le_antisymm (le_of_not_lt h3) (le_of_not_lt h2)
              subst hyz
              rw [if_pos h1]
        · rw [if_neg h1] at hab
          by_cases h4 : y < x
          · rw [if_pos h4] at hab
            exact absurd hab (by simp)
          · rw [if_neg h4] at hab
            have hxy : x = y := le_antisymm (le_of_not_lt h4) (le_of_not_lt h1)
            subst hxy
            by_cases h2 : x < z
            · rw [if_pos h2]
            · rw [if_neg h2] at hbc ⊢
              by_cases h3 : z < x
              · rw [if_pos h3] at hbc
                exact absurd hbc (by simp)
              · rw [if_neg h3] at hbc ⊢
                exact ih ys zs hab hbc

theorem keyLt_asymm (a b : String) (h : keyLt a b = true) : keyLt b a = false :=
  charListLt_asymm a.data b.data h

theorem keyLt_trans (a b c : String) (hab : keyLt a b = true)
    (hbc : keyLt b c = true) : keyLt a c = true :=
  charListLt_trans a.data b.data c.data hab hbc

theorem btreeInsert_append {A : Type} (k : String) (v : A) :
    ∀ m : List (String × A), (∀ p ∈ m, keyLt p.1 k = true) →
      btreeInsert k v m = m ++ [(k, v)] := by
  intro m
  induction m with
  | nil => intro _; rfl
  | cons p rest ih =>
    intro hall
    obtain ⟨k1, v1⟩ := p
    have h1 : keyLt k1 k = true := hall (k1, v1) (List.mem_cons_self _ _)
    have h2 : keyLt k k1 = false := keyLt_asymm k1 k h1
    simp only [btreeInsert]
    rw [if_neg (by rw [h2]; simp), if_pos h1,
      ih (fun p hp => hall p (List.mem_cons_of_mem _ hp))]
    rfl

theorem sortedKeys_tail {a : String} {ks : List String}
    (h : sortedKeys (a :: ks) = true) : sortedKeys ks = true := by
  cases ks with
  | nil => rfl
  | cons b rest =>
    simp only [sortedKeys, Bool.and_eq_true] at h
    exact h.2

theorem sortedKeys_head_lt {ks : List String} :
    ∀ {a : String}, sortedKeys (a :: ks) = true → ∀ b ∈ ks, keyLt a b = true := by
  induction ks with
  | nil =>
    intro a _ b hb
    cases hb
  | cons c rest ih =>
    intro a h b hb
    have hac : keyLt a c = true := by
      simp only [sortedKeys, Bool.and_eq_true] at h
      exact h.1
    cases hb with
    | head => exact hac
    | tail _ hb2 =>
      have hrest : sortedKeys (c :: rest) = true := sortedKeys_tail h
      exact keyLt_trans a c b hac (ih hrest b hb2)

theorem btree_foldl_sorted {A : Type} :
    ∀ (l acc : List (String × A)), sortedKeys (l.map Prod.fst) = true →
      (∀ p ∈ acc, ∀ q ∈ l, keyLt p.1 q.1 = true) →
      List.foldl (fun m kv => btreeInsert kv.1 kv.2 m) acc l = acc ++ l := by
  intro l
  induction l with
  | nil =>
    intro acc _ _
    simp
  | cons p rest ih =>
    intro acc hsort hcross
    obtain ⟨k, v⟩ := p
    show List.foldl _ (btreeInsert k v acc) rest = acc ++ (k, v) :: rest
    rw [btreeInsert_append k v acc
      (fun q hq => hcross q hq (k, v) (List.mem_cons_self _ _))]
    have hsort2 : sortedKeys (rest.map Prod.fst) = true := sortedKeys_tail hsort
    rw [ih (acc ++ [(k, v)]) hsort2 ?_]
    · simp
    · intro p hp q hq
      rcases List.mem_append.mp hp with hp1 | hp1
      · exact hcross p hp1 q (List.mem_cons_of_mem _ hq)
      · have hpk : p = (k, v) := by simpa using hp1
        subst hpk
        exact sortedKeys_head_lt hsort q.1 (List.mem_map_of_mem Prod.fst hq)

theorem btreeFromList_sorted {A : Type} (l : List (String × A))
    (h : sortedKeys (l.map Prod.fst) = true) : btreeFromList l = l := by
  unfold btreeFromList
  rw [btree_foldl_sorted l [] h (by intro p hp; cases hp)]
  simp

theorem archiveList_roundtrip {F : Type} :
    ∀ xs : List (IValue F),
      (∀ v ∈ xs, wfv v = true → (archive v).bind unarchive = some v) →
      wfvList xs = true →
      ∃ ys, archiveList xs = some ys ∧ unarchiveList ys = some xs := by
  intro xs
  induction xs with
  | nil => intro _ _; exact ⟨[], rfl, rfl⟩
  | cons x rest ih =>
    intro hih hwf
    simp only [wfvList, Bool.and_eq_true] at hwf
    have hx := hih x (List.mem_cons_self _ _) hwf.1
    rw [Option.bind_eq_some] at hx
    obtain ⟨ax, hax, hux⟩ := hx
    obtain ⟨ys, hays, huys⟩ := ih (fun v hv => hih v (List.mem_cons_of_mem _ hv)) hwf.2
    refine ⟨ax :: ys, ?_, ?_⟩
    · simp [archiveList, hax, hays]
    · simp [unarchiveList, hux, huys]

theorem archiveEntries_roundtrip {F : Type} :
    ∀ es : List (String × IValue F),
      (∀ kv ∈ es, wfv kv.2 = true → (archive kv.2).bind unarchive = some kv.2) →
      wfvEntries es = true →
      ∃ l, archiveEntries es = some l ∧ l.map Prod.fst = es.map Prod.fst
        ∧ unarchiveEntries l = some es := by
  intro es
  induction es with
  | nil => intro _ _; exact ⟨[], rfl, rfl, rfl⟩
  | cons kv rest ih =>
    intro hih hwf
    obtain ⟨k, v⟩ := kv
    simp only [wfvEntries, Bool.and_eq_true] at hwf
    have hv := hih (k, v) (List.mem_cons_self _ _) hwf.1
    rw [Option.bind_eq_some] at hv
    obtain ⟨av, hav, huv⟩ := hv
    obtain ⟨l, hal, hkeys, hul⟩ :=
      ih (fun kv2 hkv2 => hih kv2 (List.mem_cons_of_mem _ hkv2)) hwf.2
    refine ⟨(k, av) :: l, ?_, ?_, ?_⟩
    · simp [archiveEntries, hav, hal]
    · simp [hkeys]
    · simp [unarchiveEntries, huv, hul]

theorem archive_unarchive {F : Type} :
    ∀ v : IValue F, wfv v = true → (archive v).bind unarchive = some v := by
  intro v
  induction v using valueInduction with
  | hnull => intro _; rfl
  | hbool b => intro _; rfl
  | hstr s => intro _; rfl
  | hnum n =>
    intro hwf
    cases n with
    | i64 m => rfl
    | u64 m =>
      simp only [wfv, Bool.and_eq_true, decide_eq_true_eq] at hwf
      have hge : 2 ^ 63 ≤ m := hwf.1
      have hi : (INumber.u64 m : INumber F).to_i64 = none := by
        simp only [INumber.to_i64]
        rw [if_neg (by omega)]
      have hu : (INumber.u64 m : INumber F).to_u64 = some m := rfl
      have hd : (INumber.u64 m : INumber F).has_decimal_point = false := rfl
      simp only [archive, hi, hu, hd, Bool.false_eq_true, if_false,
        Option.map_some', Option.some_bind]
      simp only [unarchive, INumber.fromU64]
      rw [if_neg (by omega)]
    | f64 f => rfl
  | harr xs ih =>
    intro hwf
    have hwfl : wfvList xs = true := hwf
    obtain ⟨ys, hays, huys⟩ := archiveList_roundtrip xs ih hwfl
    simp [archive, unarchive, hays, huys]
  | hobj es ih =>
    intro hwf
    simp only [wfv, Bool.and_eq_true] at hwf
    obtain ⟨hsort, hwfe⟩ := hwf
    obtain ⟨l, hal, hkeys, hul⟩ := archiveEntries_roundtrip es ih hwfe
    have hsortl : sortedKeys (l.map Prod.fst) = true := by rw [hkeys]; exact hsort
    simp only [archive, hal, Option.map_some', Option.some_bind]
    rw [btreeFromList_sorted l hsortl]
    simp only [unarchive, hul, Option.map_some', Option.some.injEq]
    rw [btreeFromList_sorted es hsort]

/-- C1: for every well-formed value tree - nulls, bools, integers in the
64-bit signed or unsigned ranges, finite floats, strings, arrays, and
key-unique canonically ordered objects - archiving (ArchivableJson::from)
and then reconstructing (IValue::from) yields a value structurally equal to
the original. -/
theorem C1_archive_roundtrip (F : Type) (v : IValue F) (hwf : wfv v = true) :
    (archive v).bind unarchive = some v :=
  archive_unarchive v hwf

theorem C1_archive_roundtrip_witness :
    (archive (F := Nat)
        (.object [("a", .number (.i64 1)),
                  ("b", .array [.bool true, .null, .number (.f64 5)])])).bind unarchive
      = some (.object [("a", .number (.i64 1)),
                       ("b", .array [.bool true, .null, .number (.f64 5)])]) :=
  C1_archive_roundtrip Nat
    (.object [("a", .number (.i64 1)),
              ("b", .array [.bool true, .null, .number (.f64 5)])]) (by decide)

/-- C2: the forward conversion picks the Number sub-variant by exactly the
source order: a number with a decimal-point representation becomes Float;
otherwise a number convertible to a signed 64-bit integer becomes NegInt -
including every non-negative value in the signed range, such as 5 whether
built by the signed or the unsigned constructor - and only a number outside
the signed range becomes PosInt with its unsigned 64-bit value. -/
theorem C2_number_encoding_rule (F : Type) (n : INumber F) :
    (n.has_decimal_point = false → ∀ m : Int, n.to_i64 = some m →
        archive (F := F) (.number n) = some (.number (.negInt m)))
    ∧ (n.has_decimal_point = true → ∃ f : F, n.to_f64 = some f ∧
        archive (F := F) (.number n) = some (.number (.float f)))
    ∧ (n.has_decimal_point = false → n.to_i64 = none → ∃ u : Nat,
        n.to_u64 = some u ∧ archive (F := F) (.number n) = some (.number (.posInt u)))
    ∧ archive (F := F) (.number (INumber.fromI64 5)) = some (.number (.negInt 5))
    ∧ archive (F := F) (.number (INumber.fromU64 5)) = some (.number (.negInt 5)) := by
  refine ⟨?_, ?_, ?_, ?_, ?_⟩
  · intro hdec m hm
    cases n with
    | i64 v =>
      have hv : v = m := by simpa [INumber.to_i64] using hm
      subst hv
      rfl
    | u64 v =>
      simp only [INumber.to_i64] at hm
      by_cases hlt : v < 2 ^ 63
      · rw [if_pos hlt] at hm
        have hv : (v : Int) = m := by simpa using hm
        simp only [archive, INumber.has_decimal_point, INumber.to_i64]
        rw [if_pos hlt, hv]
        simp
      · rw [if_neg hlt] at hm
        exact absurd hm (by simp)
    | f64 f => simp [INumber.has_decimal_point] at hdec
  · intro hdec
    cases n with
    | i64 v => simp [INumber.has_decimal_point] at hdec
    | u64 v => simp [INumber.has_decimal_point] at hdec
    | f64 f => exact ⟨f, rfl, rfl⟩
  · intro hdec hi
    cases n with
    | i64 v => simp [INumber.to_i64] at hi
    | u64 v =>
      simp only [INumber.to_i64] at hi
      by_cases hlt : v < 2 ^ 63
      · rw [if_pos hlt] at hi
        exact absurd hi (by simp)
      · refine ⟨v, rfl, ?_⟩
        simp only [archive, INumber.has_decimal_point, INumber.to_i64,
          INumber.to_u64]
        rw [if_neg hlt]
        rfl
    | f64 f => simp [INumber.has_decimal_point] at hdec
  · rfl
  · rfl

theorem C2_number_encoding_rule_witness :
    archive (F := Nat) (.number (.u64 5)) = some (.number (.negInt 5)) :=
  (C2_number_encoding_rule Nat (.u64 5)).1 rfl 5 (by decide)

end IJson
